import Mathlib

/-!
Verification development for the craftql sources: a GraphQL schema analyzer
that parses schema files, builds a typed dependency graph, and answers
structural queries over it.

The embedding below translates the Rust sources:
- the AST types mirror the subset of `graphql_parser::schema` the sources
  consume (the parser itself is external; a file's parse outcome is part of
  the modelled input);
- `state.rs` gives the kind tags, `Entity`, `Node` and display rendering;
- `extend_types.rs` gives the per-kind dependency extractor (which sorts
  its output case-insensitively);
- `utils.rs` gives the file walker `get_files` and the graph builder
  `populate_graph_from_ast` (node phase, then edge phase);
- the newer five-argument `populate_graph_from_ast` writing the
  missing-definition index is declared in `state.rs` and invoked from
  `bin.rs` but its body is not among the sources; its edge-resolution phase
  is modelled from the spec where indicated.
-/

/-! ## AST: the subset of `graphql_parser::schema` consumed by the sources -/

/-- A directive occurrence `@name(...)`; only the name is consumed. -/
structure GqlDirective where
  name : String
deriving DecidableEq

/-- `schema::Type`: a named type possibly wrapped in list / non-null layers. -/
inductive FieldType where
  | NamedType (name : String)
  | ListType (inner : FieldType)
  | NonNullType (inner : FieldType)
deriving DecidableEq

/-- `schema::InputValue`: an argument or input field. -/
structure InputValue where
  directives : List GqlDirective
  value_type : FieldType
deriving DecidableEq

/-- `schema::Field`: an output field with arguments, directives and a type. -/
structure GqlField where
  arguments : List InputValue
  directives : List GqlDirective
  field_type : FieldType
deriving DecidableEq

/-- `schema::EnumValue`: only its directives are consumed. -/
structure EnumValue where
  directives : List GqlDirective
deriving DecidableEq

/-- `schema::EnumType` (also the payload of an enum extension). -/
structure EnumType where
  name : String
  directives : List GqlDirective
  values : List EnumValue
deriving DecidableEq

/-- `schema::ScalarType` (also the payload of a scalar extension). -/
structure ScalarType where
  name : String
  directives : List GqlDirective
deriving DecidableEq

/-- `schema::ObjectType` (also the payload of an object extension). -/
structure ObjectType where
  name : String
  directives : List GqlDirective
  fields : List GqlField
  implements_interfaces : List String
deriving DecidableEq

/-- `schema::InterfaceType` (also the payload of an interface extension). -/
structure InterfaceType where
  name : String
  directives : List GqlDirective
  fields : List GqlField
deriving DecidableEq

/-- `schema::UnionType` (also the payload of a union extension). -/
structure UnionType where
  name : String
  directives : List GqlDirective
  types : List String
deriving DecidableEq

/-- `schema::InputObjectType` (also the payload of an input object extension). -/
structure InputObjectType where
  name : String
  directives : List GqlDirective
  fields : List InputValue
deriving DecidableEq

/-- `schema::TypeDefinition`. -/
inductive TypeDefinition where
  | Enum (e : EnumType)
  | InputObject (io : InputObjectType)
  | Interface (i : InterfaceType)
  | Object (o : ObjectType)
  | Scalar (s : ScalarType)
  | Union (u : UnionType)
deriving DecidableEq

/-- `schema::TypeExtension`; the per-kind extension payloads carry the same
fields the sources consume as the corresponding definitions. -/
inductive TypeExtension where
  | Enum (e : EnumType)
  | InputObject (io : InputObjectType)
  | Interface (i : InterfaceType)
  | Object (o : ObjectType)
  | Scalar (s : ScalarType)
  | Union (u : UnionType)
deriving DecidableEq

/-- `schema::SchemaDefinition`: optional root operation type names. -/
structure SchemaDefinition where
  query : Option String
  mutation : Option String
  subscription : Option String
deriving DecidableEq

/-- `schema::DirectiveDefinition`. -/
structure DirectiveDefinition where
  name : String
  arguments : List InputValue
deriving DecidableEq

/-- `schema::Definition`: one top-level declaration. -/
inductive Definition where
  | TypeDefinition (td : TypeDefinition)
  | SchemaDefinition (sd : SchemaDefinition)
  | DirectiveDefinition (dd : DirectiveDefinition)
  | TypeExtension (te : TypeExtension)
deriving DecidableEq

/-- `schema::Document`: the ordered declarations of one parsed file. -/
structure Document where
  definitions : List Definition
deriving DecidableEq

/-! ## state.rs: kind tags, entities, nodes -/

/-- `state::GraphQLType`: core GraphQL types used for definitions and
extensions. -/
inductive GraphQLType where
  | Enum
  | InputObject
  | Interface
  | Object
  | Scalar
  | Union
deriving DecidableEq

/-- `state::GraphQL`: derived and simplified from the parser's enums. -/
inductive GraphQL where
  | Directive
  | Schema
  | TypeDefinition (t : GraphQLType)
  | TypeExtension (t : GraphQLType)
deriving DecidableEq

/-- `state::Entity`: a parsed declaration as stored in the graph. In
`utils.rs` the entity's graph-visible id is carried by the enclosing `Node`,
so it is not duplicated here. -/
structure Entity where
  dependencies : List String
  graphql : GraphQL
  name : String
  path : String
  raw : String
deriving DecidableEq

/-- `state.rs` `impl fmt::Display for Entity`: renders the source path on a
comment line followed by the stored raw text. -/
def Entity.display (e : Entity) : String :=
  "\n# " ++ e.path ++ "\n" ++ e.raw

/-- `state::Node`: an entity plus its unique-by-intent graph id. -/
structure Node where
  entity : Entity
  id : String
deriving DecidableEq

/-! ## extend_types.rs: the per-kind dependency extractor -/

namespace ExtendTypes

/-- Rust `str::to_lowercase`, restricted to the ASCII names GraphQL allows:
lowercases every character of the string. -/
def to_lowercase (s : String) : String :=
  ⟨s.data.map Char.toLower⟩

/-- Lexicographic comparison of character sequences: the order `String`'s
`Ord` gives in Rust (byte order coincides with character order on the ASCII
names GraphQL allows). -/
def chars_le : List Char → List Char → Bool
  | [], _ => true
  | _ :: _, [] => false
  | a :: as, b :: bs => if a < b then true else if b < a then false else chars_le as bs

/-- The sort key order used by `sort_dependencies`: case-insensitive
lexicographic comparison. -/
def lower_le (a b : String) : Prop :=
  chars_le (to_lowercase a).data (to_lowercase b).data = true

instance : DecidableRel lower_le := fun a b =>
  inferInstanceAs (Decidable (chars_le (to_lowercase a).data (to_lowercase b).data = true))

/-- `extend_types::sort_dependencies`: `sort_by_key(|a| a.to_lowercase())`,
a stable sort by lowercased key (insertion sort with a total preorder is
extensionally that stable sort). -/
def sort_dependencies (dependencies : List String) : List String :=
  dependencies.insertionSort lower_le

/-- `extend_types::get_dependencies_from_directives`. -/
def get_dependencies_from_directives (directives : List GqlDirective) : List String :=
  directives.map (fun directive => directive.name)

/-- `extend_types::walk_field_type`: strip list / non-null wrappers down to
the named type. -/
def walk_field_type : FieldType → String
  | .NamedType name => name
  | .ListType field_type => walk_field_type field_type
  | .NonNullType field_type => walk_field_type field_type

/-- `extend_types::walk_field`: argument type names, then the field's
directives, then the field's own type name. -/
def walk_field (field : GqlField) : List String :=
  field.arguments.map (fun argument => walk_field_type argument.value_type)
    ++ get_dependencies_from_directives field.directives
    ++ [walk_field_type field.field_type]

/-- `extend_types::walk_input_value`: the input value's directives, then its
type name. -/
def walk_input_value (input_value : InputValue) : List String :=
  get_dependencies_from_directives input_value.directives
    ++ [walk_field_type input_value.value_type]

/-- The unsorted dependency stream of a type definition: the argument that
`TypeDefinition::get_dependencies` passes to `sort_dependencies`, per kind.
Note the `InputObject` arm chains the input object's own name (the source
comments it "Add extension's source.") even though this is the definition. -/
def TypeDefinition.unsorted_dependencies : TypeDefinition → List String
  | .Enum enum_type =>
      get_dependencies_from_directives enum_type.directives
        ++ enum_type.values.flatMap
            (fun enum_value => get_dependencies_from_directives enum_value.directives)
  | .Scalar scalar_type =>
      get_dependencies_from_directives scalar_type.directives
  | .Object object_type =>
      object_type.fields.flatMap walk_field
        ++ get_dependencies_from_directives object_type.directives
        ++ object_type.implements_interfaces
  | .Interface interface_type =>
      interface_type.fields.flatMap walk_field
        ++ get_dependencies_from_directives interface_type.directives
  | .Union union_type =>
      union_type.types ++ get_dependencies_from_directives union_type.directives
  | .InputObject input_object_type =>
      input_object_type.fields.flatMap walk_input_value
        ++ get_dependencies_from_directives input_object_type.directives
        ++ [input_object_type.name]

/-- `ExtendType::get_dependencies` for `schema::TypeDefinition`. -/
def TypeDefinition.get_dependencies (td : TypeDefinition) : List String :=
  sort_dependencies (TypeDefinition.unsorted_dependencies td)

/-- The unsorted dependency stream of a type extension: the argument that
`TypeExtension::get_dependencies` passes to `sort_dependencies`, per kind.
Every arm appends the extension's own name last. -/
def TypeExtension.unsorted_dependencies : TypeExtension → List String
  | .Enum enum_type_extension =>
      get_dependencies_from_directives enum_type_extension.directives
        ++ enum_type_extension.values.flatMap
            (fun enum_value => get_dependencies_from_directives enum_value.directives)
        ++ [enum_type_extension.name]
  | .Scalar scalar_type_extension =>
      get_dependencies_from_directives scalar_type_extension.directives
        ++ [scalar_type_extension.name]
  | .Object object_type_extension =>
      object_type_extension.fields.flatMap walk_field
        ++ get_dependencies_from_directives object_type_extension.directives
        ++ object_type_extension.implements_interfaces
        ++ [object_type_extension.name]
  | .Interface interface_type_extension =>
      interface_type_extension.fields.flatMap walk_field
        ++ get_dependencies_from_directives interface_type_extension.directives
        ++ [interface_type_extension.name]
  | .Union union_type_extension =>
      union_type_extension.types
        ++ get_dependencies_from_directives union_type_extension.directives
        ++ [union_type_extension.name]
  | .InputObject input_object_type_extension =>
      input_object_type_extension.fields.flatMap walk_input_value
        ++ get_dependencies_from_directives input_object_type_extension.directives
        ++ [input_object_type_extension.name]

/-- `ExtendType::get_dependencies` for `schema::TypeExtension`. -/
def TypeExtension.get_dependencies (te : TypeExtension) : List String :=
  sort_dependencies (TypeExtension.unsorted_dependencies te)

/-- The unsorted dependency stream of a schema definition: present root
operation type names in query, mutation, subscription order. -/
def SchemaDefinition.unsorted_dependencies (sd : SchemaDefinition) : List String :=
  [sd.query, sd.mutation, sd.subscription].filterMap id

/-- `ExtendType::get_dependencies` for `schema::SchemaDefinition`. -/
def SchemaDefinition.get_dependencies (sd : SchemaDefinition) : List String :=
  sort_dependencies (SchemaDefinition.unsorted_dependencies sd)

/-- The unsorted dependency stream of a directive definition: each
argument's directives then its type name. -/
def DirectiveDefinition.unsorted_dependencies (dd : DirectiveDefinition) : List String :=
  dd.arguments.flatMap walk_input_value

/-- `ExtendType::get_dependencies` for `schema::DirectiveDefinition`. -/
def DirectiveDefinition.get_dependencies (dd : DirectiveDefinition) : List String :=
  sort_dependencies (DirectiveDefinition.unsorted_dependencies dd)

/-- `extend_types::get_extended_id`: appends the reserved suffix used by the
extractor's identities. -/
def get_extended_id (id : String) : String :=
  id ++ "__"

end ExtendTypes

/-! ## utils.rs: file walking and the graph builder -/

namespace Utils

/-- Modelled from the spec: `config.rs` (`ALLOWED_EXTENSIONS`) is not among
the sources; §6 restricts the corpus to "a configurable file-extension
allow-list" of GraphQL schema files. No result below depends on the list's
contents. -/
def ALLOWED_EXTENSIONS : List String := ["graphql", "gql"]

/-- `utils::is_extension_allowed`. -/
def is_extension_allowed (ext : String) : Bool :=
  ALLOWED_EXTENSIONS.contains ext

/-- `utils::get_extended_id`: `format!("{}Ext", id)`. -/
def get_extended_id (id : String) : String :=
  id ++ "Ext"

/-- A filesystem entry as `get_files` observes it: a file carries the
optional file-name extension and its text contents; a directory carries its
entries. -/
inductive FsEntry where
  | file (path : String) (ext : Option String) (contents : String)
  | dir (path : String) (entries : List FsEntry)

mutual

/-- `utils::get_files` on one path. Filesystem reads are modelled as
infallible, so the function's `Result` error channel never fires; `none`
models the panic of `extension().unwrap()` on a file name that has no
extension. -/
def get_files : FsEntry → Option (List (String × String))
  | .file path ext contents =>
    match ext with
    | none => none
    | some e => if is_extension_allowed e then some [(path, contents)] else some []
  | .dir _ entries => get_files_entries entries

/-- The directory loop of `get_files`: a non-directory entry with an allowed
extension is read and inserted; any other entry is recursed into; looking at
a non-directory entry's extension panics (`none`) when its file name has no
extension. -/
def get_files_entries : List FsEntry → Option (List (String × String))
  | [] => some []
  | entry :: rest => do
    let collected ←
      match entry with
      | .file _ none _ => (none : Option (List (String × String)))
      | .file path (some e) contents =>
        if is_extension_allowed e then some [(path, contents)]
        else get_files (.file path (some e) contents)
      | .dir p entries => get_files (.dir p entries)
    let others ← get_files_entries rest
    some (collected ++ others)

end

mutual

/-- Whether the tree contains a file whose name has no extension. -/
def has_extensionless_file : FsEntry → Bool
  | .file _ ext _ => ext.isNone
  | .dir _ entries => has_extensionless_file_entries entries

/-- `has_extensionless_file` over a directory's entries. -/
def has_extensionless_file_entries : List FsEntry → Bool
  | [] => false
  | entry :: rest => has_extensionless_file entry || has_extensionless_file_entries rest

end

/-- A source file together with the outcome of the external
`graphql_parser::parse_schema` on its contents: the parser is an external
collaborator (§2), so a file's parse result is part of the modelled input.
The list order stands for the iteration order over the shared file map,
which carries no ordering guarantee. -/
structure SourceFile where
  path : String
  contents : String
  parsed : Except String Document

/-- `utils::walk_field_type` (utils.rs carries its own copy). -/
def walk_field_type : FieldType → String
  | .NamedType name => name
  | .ListType field_type => walk_field_type field_type
  | .NonNullType field_type => walk_field_type field_type

/-- `utils::walk_field` (utils.rs carries its own copy). -/
def walk_field (field : GqlField) : List String :=
  field.arguments.map (fun argument => walk_field_type argument.value_type)
    ++ field.directives.map (fun directive => directive.name)
    ++ [walk_field_type field.field_type]

/-- `utils::walk_input_value` (utils.rs carries its own copy). -/
def walk_input_value (input_value : InputValue) : List String :=
  input_value.directives.map (fun directive => directive.name)
    ++ [walk_field_type input_value.value_type]

/-- The node built for one declaration by phase 1 of
`populate_graph_from_ast`, with the dependency list recorded for it in
`dependency_hash_map` (`none` for a scalar definition, which records
nothing). The entity's raw text is the whole file's contents, as passed at
every `Entity::new` call site. The interface-extension arm tags its node
`TypeExtension(Scalar)`, as the source does. -/
def node_of_definition (file contents : String) : Definition → Node × Option (List String)
  | .TypeDefinition (.Enum enum_type) =>
    let dependencies := enum_type.directives.map (fun directive => directive.name)
      ++ enum_type.values.flatMap
          (fun enum_value => enum_value.directives.map (fun directive => directive.name))
    (⟨⟨dependencies, .TypeDefinition .Enum, enum_type.name, file, contents⟩,
      enum_type.name⟩, some dependencies)
  | .TypeDefinition (.InputObject input_object_type) =>
    let fields := input_object_type.fields.flatMap walk_input_value
      ++ input_object_type.directives.map (fun directive => directive.name)
    (⟨⟨fields, .TypeDefinition .InputObject, input_object_type.name, file, contents⟩,
      input_object_type.name⟩, some fields)
  | .TypeDefinition (.Interface interface_type) =>
    let fields := interface_type.fields.flatMap walk_field
    (⟨⟨fields, .TypeDefinition .Interface, interface_type.name, file, contents⟩,
      interface_type.name⟩, some fields)
  | .TypeDefinition (.Object object_type) =>
    let fields_and_interfaces := object_type.fields.flatMap walk_field
      ++ object_type.implements_interfaces
    (⟨⟨fields_and_interfaces, .TypeDefinition .Object, object_type.name, file, contents⟩,
      object_type.name⟩, some fields_and_interfaces)
  | .TypeDefinition (.Scalar scalar_type) =>
    (⟨⟨[], .TypeDefinition .Scalar, scalar_type.name, file, contents⟩,
      scalar_type.name⟩, none)
  | .TypeDefinition (.Union union_type) =>
    (⟨⟨union_type.types, .TypeDefinition .Union, union_type.name, file, contents⟩,
      union_type.name⟩, some union_type.types)
  | .SchemaDefinition schema_definition =>
    let fields := [schema_definition.query, schema_definition.mutation,
      schema_definition.subscription].filterMap id
    (⟨⟨fields, .Schema, "Schema", file, contents⟩, "Schema"⟩, some fields)
  | .DirectiveDefinition directive_definition =>
    let fields := directive_definition.arguments.flatMap walk_input_value
    (⟨⟨fields, .Directive, directive_definition.name, file, contents⟩,
      directive_definition.name⟩, some fields)
  | .TypeExtension (.Object object_type_extension) =>
    let dependencies := object_type_extension.fields.flatMap walk_field
      ++ object_type_extension.implements_interfaces
      ++ [object_type_extension.name]
    (⟨⟨dependencies, .TypeExtension .Object, object_type_extension.name, file, contents⟩,
      get_extended_id object_type_extension.name⟩, some dependencies)
  | .TypeExtension (.Scalar scalar_type_extension) =>
    let dependencies := scalar_type_extension.directives.map (fun directive => directive.name)
      ++ [scalar_type_extension.name]
    (⟨⟨dependencies, .TypeExtension .Scalar, scalar_type_extension.name, file, contents⟩,
      get_extended_id scalar_type_extension.name⟩, some dependencies)
  | .TypeExtension (.Interface interface_type_extension) =>
    let dependencies := interface_type_extension.directives.map (fun directive => directive.name)
      ++ interface_type_extension.fields.flatMap walk_field
      ++ [interface_type_extension.name]
    (⟨⟨dependencies, .TypeExtension .Scalar, interface_type_extension.name, file, contents⟩,
      get_extended_id interface_type_extension.name⟩, some dependencies)
  | .TypeExtension (.Union union_type_extension) =>
    let dependencies := union_type_extension.types ++ [union_type_extension.name]
    (⟨⟨dependencies, .TypeExtension .Union, union_type_extension.name, file, contents⟩,
      get_extended_id union_type_extension.name⟩, some dependencies)
  | .TypeExtension (.Enum enum_type_extension) =>
    let dependencies := [enum_type_extension.name]
    (⟨⟨dependencies, .TypeExtension .Enum, enum_type_extension.name, file, contents⟩,
      get_extended_id enum_type_extension.name⟩, some dependencies)
  | .TypeExtension (.InputObject input_object_type_extension) =>
    let dependencies := input_object_type_extension.fields.flatMap walk_input_value
      ++ [input_object_type_extension.name]
    (⟨⟨dependencies, .TypeExtension .InputObject, input_object_type_extension.name,
        file, contents⟩,
      get_extended_id input_object_type_extension.name⟩, some dependencies)

/-- The graph part of the shared `Data`: petgraph nodes in insertion order
(a node's index is its position in the list) and the edges, each edge's
weight being its endpoint-index pair. -/
structure BuildState where
  nodes : List Node
  edges : List (Nat × Nat)
deriving DecidableEq

/-- The fresh state `State::new` supplies. -/
def empty_state : BuildState := ⟨[], []⟩

/-- One declaration step of phase 1: `graph.add_node` plus the
`dependency_hash_map.insert` on the fresh node's index. -/
def add_definition (file : SourceFile) (acc : BuildState × List (Nat × List String))
    (definition : Definition) : BuildState × List (Nat × List String) :=
  let built := node_of_definition file.path file.contents definition
  let node_index := acc.1.nodes.length
  (⟨acc.1.nodes ++ [built.1], acc.1.edges⟩,
    match built.2 with
    | some dependencies => acc.2 ++ [(node_index, dependencies)]
    | none => acc.2)

/-- Phase 1 of `populate_graph_from_ast`: parse each file and add one node
per declaration, recording dependency lists keyed by node index; `?` on a
parse failure aborts immediately, leaving the nodes added so far in place
and reporting the failing file's error. -/
def phase1 : List SourceFile → BuildState × List (Nat × List String) →
    (BuildState × List (Nat × List String)) × Option String
  | [], acc => (acc, none)
  | file :: rest, acc =>
    match file.parsed with
    | .error e => (acc, some e)
    | .ok ast => phase1 rest (ast.definitions.foldl (add_definition file) acc)

/-- `graph.node_indices().find(|index| graph[*index].id == dependency)`:
the first node index whose id equals the name. -/
def resolve_id (nodes : List Node) (dependency : String) : Option Nat :=
  nodes.findIdx? (fun node => node.id == dependency)

/-- petgraph's `update_edge`: adds the edge unless an edge with the same
endpoints already exists (whose weight — equal to the endpoint pair — is
then overwritten with the same value, leaving the graph unchanged). -/
def update_edge (a b : Nat) (edges : List (Nat × Nat)) : List (Nat × Nat) :=
  if (a, b) ∈ edges then edges else edges ++ [(a, b)]

/-- Phase 2 of `populate_graph_from_ast` as present in utils.rs: for every
recorded dependency name that resolves to a node index, add the edge
resolved → dependent; unresolved names are skipped. -/
def phase2 (nodes : List Node) (dependency_hash_map : List (Nat × List String))
    (edges : List (Nat × Nat)) : List (Nat × Nat) :=
  dependency_hash_map.foldl (fun es entry =>
    entry.2.foldl (fun es dependency =>
      match resolve_id nodes dependency with
      | some index => update_edge index entry.1 es
      | none => es) es) edges

/-- `utils::populate_graph_from_ast`: phase 1 over the shared file map's
iteration sequence, then phase 2; a parse error propagates out after phase 1
stops, with the shared graph keeping whatever phase 1 already inserted. -/
def populate_graph_from_ast (files : List SourceFile) (data : BuildState) :
    Except String Unit × BuildState :=
  let step := phase1 files (data, [])
  match step.2 with
  | some e => (.error e, step.1.1)
  | none => (.ok (), ⟨step.1.1.nodes, phase2 step.1.1.nodes step.1.2 step.1.1.edges⟩)

end Utils

/-! ## The newer edge-resolution phase, modelled from the spec -/

namespace SpecModel

/-- Modelled from the spec: the five GraphQL built-in scalar names that
phase 2 ignores when unresolved (§4.2); the five-argument
`populate_graph_from_ast` consuming them is invoked from `bin.rs` and fills
`Data::missing_definitions` (state.rs), but its body is not among the
sources. -/
def builtin_scalars : List String := ["Boolean", "Float", "ID", "Int", "String"]

/-- Whether the dependent node at the given index carries an extension kind. -/
def dependent_is_extension (nodes : List Node) (node_index : Nat) : Bool :=
  match nodes.get? node_index with
  | some node =>
    match node.entity.graphql with
    | .TypeExtension _ => true
    | _ => false
  | none => false

/-- Modelled from the spec: one name-resolution step of the newer phase 2
(§4.2). A resolved name adds an edge — dependent → resolved when the
dependent is an extension, resolved → dependent otherwise — with duplicate
edges collapsing; an unresolved name is ignored when it is a built-in scalar
and appended to the node's missing-definition list otherwise. -/
def resolve_one (nodes : List Node) (node_index : Nat)
    (acc : List (Nat × Nat) × List String) (dependency : String) :
    List (Nat × Nat) × List String :=
  match Utils.resolve_id nodes dependency with
  | some index =>
    if dependent_is_extension nodes node_index
    then (Utils.update_edge node_index index acc.1, acc.2)
    else (Utils.update_edge index node_index acc.1, acc.2)
  | none =>
    if dependency ∈ builtin_scalars then acc
    else (acc.1, acc.2 ++ [dependency])

/-- Modelled from the spec: the newer phase 2 over every node's recorded
dependency list, producing the edge set and the missing-definition index;
a node is recorded there exactly when its missing list is non-empty. -/
def phase2_with_missing (nodes : List Node)
    (dependency_hash_map : List (Nat × List String)) :
    List (Nat × Nat) × List (Nat × List String) :=
  dependency_hash_map.foldl (fun acc entry =>
    let step := entry.2.foldl (resolve_one nodes entry.1) (acc.1, [])
    (step.1, if step.2.isEmpty then acc.2 else acc.2 ++ [(entry.1, step.2)]))
    ([], [])

end SpecModel

/-! ## Derived descriptors of the build, used to state its properties -/

namespace Utils

/-- Whether a file's modelled parse outcome is a success. -/
def parse_ok (f : SourceFile) : Bool :=
  match f.parsed with
  | .ok _ => true
  | .error _ => false

/-- The parse error of the first file (in iteration order) whose contents do
not parse, if any. -/
def first_parse_error : List SourceFile → Option String
  | [] => none
  | file :: rest =>
    match file.parsed with
    | .error e => some e
    | .ok _ => first_parse_error rest

/-- The nodes phase 1 creates for one file: one per declaration of its
parsed document, in order; none when the file does not parse. -/
def nodes_of_file (f : SourceFile) : List Node :=
  match f.parsed with
  | .ok ast => ast.definitions.map (fun d => (node_of_definition f.path f.contents d).1)
  | .error _ => []

/-- The number of declarations across all files that parse. -/
def total_definitions (files : List SourceFile) : Nat :=
  (files.flatMap fun f =>
    match f.parsed with
    | .ok ast => ast.definitions
    | .error _ => []).length

end Utils

/-! ## Concrete corpora used as witnesses and counterexamples -/

/-- One file declaring an enum `Foo` and an extension of it. -/
def enum_and_extension_file : Utils.SourceFile :=
  ⟨"a.gql", "enum Foo extend enum Foo",
    .ok ⟨[.TypeDefinition (.Enum ⟨"Foo", [], []⟩),
          .TypeExtension (.Enum ⟨"Foo", [], []⟩)]⟩⟩

/-- One file declaring an extension of `Foo` and a scalar named `FooExt`:
the extension's mangled id collides with the scalar's name. -/
def colliding_ids_file : Utils.SourceFile :=
  ⟨"c.gql", "extend enum Foo scalar FooExt",
    .ok ⟨[.TypeExtension (.Enum ⟨"Foo", [], []⟩),
          .TypeDefinition (.Scalar ⟨"FooExt", []⟩)]⟩⟩

/-- A file that parses, declaring one enum. -/
def good_enum_file : Utils.SourceFile :=
  ⟨"good.gql", "enum Foo", .ok ⟨[.TypeDefinition (.Enum ⟨"Foo", [], []⟩)]⟩⟩

/-- A file whose contents do not parse. -/
def parse_error_file : Utils.SourceFile :=
  ⟨"bad.gql", "enum ???", .error "syntax error"⟩

/-- One file with two declarations, to compare their stored raw texts. -/
def two_enums_file : Utils.SourceFile :=
  ⟨"two.gql", "enum Foo enum Bar",
    .ok ⟨[.TypeDefinition (.Enum ⟨"Foo", [], []⟩),
          .TypeDefinition (.Enum ⟨"Bar", [], []⟩)]⟩⟩

/-- One file declaring an interface extension. -/
def interface_extension_file : Utils.SourceFile :=
  ⟨"iface.gql", "extend interface Foo",
    .ok ⟨[.TypeExtension (.Interface ⟨"Foo", [], []⟩)]⟩⟩

/-- `input Foo @test { bar: Int! @deprecated }`. -/
def example_input_object : InputObjectType :=
  ⟨"Foo", [⟨"test"⟩], [⟨[⟨"deprecated"⟩], .NonNullType (.NamedType "Int")⟩]⟩

/-! ## General lemmas about the builder -/

namespace Utils

theorem mem_update_edge {e : Nat × Nat} {a b : Nat} {edges : List (Nat × Nat)} :
    e ∈ update_edge a b edges ↔ e ∈ edges ∨ e = (a, b) := by
  unfold update_edge
  split
  · rename_i h
    constructor
    · exact fun he => Or.inl he
    · rintro (he | rfl)
      · exact he
      · exact h
  · simp [List.mem_append]

theorem update_edge_of_mem {a b : Nat} {edges : List (Nat × Nat)}
    (h : (a, b) ∈ edges) : update_edge a b edges = edges := by
  simp [update_edge, h]

theorem update_edge_nodup {a b : Nat} {edges : List (Nat × Nat)}
    (h : edges.Nodup) : (update_edge a b edges).Nodup := by
  unfold update_edge
  split
  · exact h
  · rename_i hmem
    simpa [List.nodup_append] using ⟨h, hmem⟩

theorem mem_phase2_inner (nodes : List Node) (ni : Nat) (deps : List String)
    (es : List (Nat × Nat)) (e : Nat × Nat) :
    e ∈ deps.foldl (fun es dependency =>
        match resolve_id nodes dependency with
        | some index => update_edge index ni es
        | none => es) es ↔
      e ∈ es ∨ ∃ dep ∈ deps, resolve_id nodes dep = some e.1 ∧ e.2 = ni := by
  induction deps generalizing es with
  | nil => simp
  | cons d ds ih =>
    simp only [List.foldl_cons]
    rw [ih]
    cases hd : resolve_id nodes d with
    | none => simp [hd, List.exists_mem_cons_iff]
    | some i =>
      simp only [hd, mem_update_edge, List.exists_mem_cons_iff, hd, Option.some.injEq,
        Prod.ext_iff]
      constructor
      · rintro ((he | ⟨h1, h2⟩) | h)
        · exact Or.inl he
        · exact Or.inr (Or.inl ⟨h1.symm, h2⟩)
        · exact Or.inr (Or.inr h)
      · rintro (he | ⟨h1, h2⟩ | h)
        · exact Or.inl (Or.inl he)
        · exact Or.inl (Or.inr ⟨h1.symm, h2⟩)
        · exact Or.inr h

theorem phase2_inner_nodup (nodes : List Node) (ni : Nat) (deps : List String)
    {es : List (Nat × Nat)} (h : es.Nodup) :
    (deps.foldl (fun es dependency =>
        match resolve_id nodes dependency with
        | some index => update_edge index ni es
        | none => es) es).Nodup := by
  induction deps generalizing es with
  | nil => exact h
  | cons d ds ih =>
    simp only [List.foldl_cons]
    apply ih
    cases hd : resolve_id nodes d with
    | none => simpa [hd] using h
    | some i => simpa [hd] using update_edge_nodup h

theorem mem_phase2 (nodes : List Node) (dm : List (Nat × List String))
    (es : List (Nat × Nat)) (e : Nat × Nat) :
    e ∈ phase2 nodes dm es ↔
      e ∈ es ∨ ∃ entry ∈ dm, ∃ dep ∈ entry.2,
        resolve_id nodes dep = some e.1 ∧ e.2 = entry.1 := by
  induction dm generalizing es with
  | nil => simp [phase2]
  | cons entry rest ih =>
    simp only [phase2, List.foldl_cons] at ih ⊢
    rw [ih, mem_phase2_inner]
    simp only [List.exists_mem_cons_iff]
    rw [or_assoc]

theorem phase2_nodup (nodes : List Node) (dm : List (Nat × List String))
    {es : List (Nat × Nat)} (h : es.Nodup) : (phase2 nodes dm es).Nodup := by
  induction dm generalizing es with
  | nil => exact h
  | cons entry rest ih =>
    simp only [phase2, List.foldl_cons] at ih ⊢
    exact ih (phase2_inner_nodup nodes entry.1 entry.2 h)

end Utils

namespace Utils

theorem foldl_add_definition (f : SourceFile) (defs : List Definition) :
    ∀ acc : BuildState × List (Nat × List String),
      ((defs.foldl (add_definition f) acc).1.nodes
          = acc.1.nodes ++ defs.map (fun d => (node_of_definition f.path f.contents d).1))
      ∧ (defs.foldl (add_definition f) acc).1.edges = acc.1.edges := by
  induction defs with
  | nil => intro acc; simp
  | cons d ds ih =>
    intro acc
    simp only [List.foldl_cons, List.map_cons]
    rcases ih (add_definition f acc d) with ⟨h1, h2⟩
    refine ⟨?_, ?_⟩
    · rw [h1]
      show (add_definition f acc d).1.nodes ++ _ = _
      simp [add_definition]
    · rw [h2]
      rfl

theorem phase1_state (files : List SourceFile) :
    ∀ acc : BuildState × List (Nat × List String),
      ((phase1 files acc).1.1.nodes
          = acc.1.nodes ++ (files.takeWhile parse_ok).flatMap nodes_of_file)
      ∧ (phase1 files acc).1.1.edges = acc.1.edges
      ∧ (phase1 files acc).2 = first_parse_error files := by
  induction files with
  | nil => intro acc; simp [phase1, first_parse_error]
  | cons f rest ih =>
    intro acc
    cases hp : f.parsed with
    | error e =>
      have hpo : parse_ok f = false := by simp [parse_ok, hp]
      simp [phase1, hp, first_parse_error, List.takeWhile_cons, hpo]
    | ok ast =>
      have hpo : parse_ok f = true := by simp [parse_ok, hp]
      have hfold := foldl_add_definition f ast.definitions acc
      have hrest := ih (ast.definitions.foldl (add_definition f) acc)
      have hnof : nodes_of_file f
          = ast.definitions.map (fun d => (node_of_definition f.path f.contents d).1) := by
        simp [nodes_of_file, hp]
      refine ⟨?_, ?_, ?_⟩
      · show (phase1 (f :: rest) acc).1.1.nodes = _
        simp only [phase1, hp]
        rw [hrest.1, hfold.1]
        simp [List.takeWhile_cons, hpo, hnof]
      · show (phase1 (f :: rest) acc).1.1.edges = _
        simp only [phase1, hp]
        rw [hrest.2.1, hfold.2]
      · show (phase1 (f :: rest) acc).2 = _
        simp only [phase1, hp, first_parse_error]
        exact hrest.2.2

theorem populate_nodes (files : List SourceFile) (st : BuildState) :
    (populate_graph_from_ast files st).2.nodes
      = st.nodes ++ (files.takeWhile parse_ok).flatMap nodes_of_file := by
  have h := phase1_state files (st, [])
  unfold populate_graph_from_ast
  cases h2 : (phase1 files (st, [])).2 <;> simpa [h2] using h.1

theorem populate_error_iff (files : List SourceFile) (st : BuildState) (e : String) :
    (populate_graph_from_ast files st).1 = .error e ↔ first_parse_error files = some e := by
  have h := (phase1_state files (st, [])).2.2
  simp only [populate_graph_from_ast]
  rw [h]
  cases hfe : first_parse_error files <;> simp [hfe]

theorem populate_ok_iff (files : List SourceFile) (st : BuildState) :
    (populate_graph_from_ast files st).1 = .ok () ↔ first_parse_error files = none := by
  have h := (phase1_state files (st, [])).2.2
  simp only [populate_graph_from_ast]
  rw [h]
  cases hfe : first_parse_error files <;> simp [hfe]

theorem populate_edges_error (files : List SourceFile) (st : BuildState) (e : String)
    (herr : (populate_graph_from_ast files st).1 = .error e) :
    (populate_graph_from_ast files st).2.edges = st.edges := by
  have h2 := (phase1_state files (st, [])).2.2
  have hE := (phase1_state files (st, [])).2.1
  have hfe : first_parse_error files = some e := (populate_error_iff files st e).mp herr
  simp only [populate_graph_from_ast]
  rw [h2, hfe]
  simpa using hE

theorem populate_edges_nodup (files : List SourceFile) (st : BuildState)
    (h : st.edges.Nodup) : ((populate_graph_from_ast files st).2.edges).Nodup := by
  have hE := (phase1_state files (st, [])).2.1
  unfold populate_graph_from_ast
  cases h2 : (phase1 files (st, [])).2 with
  | none =>
    simp only [h2]
    exact phase2_nodup _ _ (hE ▸ h)
  | some e => simpa [h2] using hE ▸ h

end Utils

namespace Utils

theorem first_parse_error_none_iff (files : List SourceFile) :
    first_parse_error files = none ↔ ∀ f ∈ files, parse_ok f = true := by
  induction files with
  | nil => simp [first_parse_error]
  | cons f rest ih =>
    cases hp : f.parsed <;>
      simp [first_parse_error, hp, parse_ok, ih]

theorem get_extended_id_ne (s : String) : get_extended_id s ≠ s := by
  intro h
  have := congrArg String.length h
  simp [get_extended_id, String.length_append] at this
  exact absurd this (by decide)

end Utils

theorem snd_eq_of_keys_nodup {α β : Type} {l : List (α × β)}
    (h : (l.map Prod.fst).Nodup) {k : α} {x y : β}
    (hx : (k, x) ∈ l) (hy : (k, y) ∈ l) : x = y := by
  induction l with
  | nil => cases hx
  | cons p rest ih =>
    simp only [List.map_cons, List.nodup_cons] at h
    rcases List.mem_cons.mp hx with hpx | hx'
    · rcases List.mem_cons.mp hy with hpy | hy'
      · rw [← hpx] at hpy
        exact (Prod.mk.injEq _ _ _ _ ▸ hpy).2.symm
      · exfalso
        exact h.1 (List.mem_map.mpr ⟨(k, y), hy', by rw [← hpx]⟩)
    · rcases List.mem_cons.mp hy with hpy | hy'
      · exfalso
        exact h.1 (List.mem_map.mpr ⟨(k, x), hx', by rw [← hpy]⟩)
      · exact ih h.2 hx' hy'

namespace SpecModel

/-- The filter the missing-definition list of one node amounts to. -/
theorem resolve_one_missing (nodes : List Node) (ni : Nat) (deps : List String) :
    ∀ (es : List (Nat × Nat)) (m : List String),
      (deps.foldl (resolve_one nodes ni) (es, m)).2
        = m ++ deps.filter (fun d => (Utils.resolve_id nodes d).isNone
            && !(decide (d ∈ builtin_scalars))) := by
  induction deps with
  | nil => intro es m; simp
  | cons d ds ih =>
    intro es m
    simp only [List.foldl_cons, List.filter_cons]
    cases hd : Utils.resolve_id nodes d with
    | some i =>
      by_cases hext : dependent_is_extension nodes ni <;>
        simp [resolve_one, hd, hext, ih]
    | none =>
      by_cases hb : d ∈ builtin_scalars
      · simp [resolve_one, hd, hb, ih]
      · simp [resolve_one, hd, hb, ih]

/-- The missing-definition index the modelled phase 2 produces: per recorded
node, the unresolved non-built-in dependency names, kept only when
non-empty. -/
theorem phase2_with_missing_snd (nodes : List Node) (dm : List (Nat × List String)) :
    (phase2_with_missing nodes dm).2
      = dm.filterMap (fun entry =>
          let m := entry.2.filter (fun d => (Utils.resolve_id nodes d).isNone
              && !(decide (d ∈ builtin_scalars)))
          if m.isEmpty then none else some (entry.1, m)) := by
  suffices h : ∀ acc : List (Nat × Nat) × List (Nat × List String),
      (dm.foldl (fun acc entry =>
          let step := entry.2.foldl (resolve_one nodes entry.1) (acc.1, [])
          (step.1, if step.2.isEmpty then acc.2 else acc.2 ++ [(entry.1, step.2)])) acc).2
        = acc.2 ++ dm.filterMap (fun entry =>
            let m := entry.2.filter (fun d => (Utils.resolve_id nodes d).isNone
                && !(decide (d ∈ builtin_scalars)))
            if m.isEmpty then none else some (entry.1, m)) by
    simpa [phase2_with_missing] using h ([], [])
  induction dm with
  | nil => intro acc; simp
  | cons entry rest ih =>
    intro acc
    simp only [List.foldl_cons, List.filterMap_cons]
    rw [ih]
    rw [resolve_one_missing nodes entry.1 entry.2 acc.1 []]
    simp only [List.nil_append]
    by_cases hempty : (entry.2.filter (fun d => (Utils.resolve_id nodes d).isNone
        && !(decide (d ∈ builtin_scalars)))).isEmpty
    · simp [hempty]
    · simp [hempty]

end SpecModel

namespace ExtendTypes

theorem chars_le_total (a b : List Char) : chars_le a b = true ∨ chars_le b a = true := by
  induction a generalizing b with
  | nil => left; rfl
  | cons x xs ih =>
    cases b with
    | nil => right; rfl
    | cons y ys =>
      by_cases hxy : x < y
      · left; simp [chars_le, hxy]
      · by_cases hyx : y < x
        · right; simp [chars_le, hyx, asymm hyx]
        · rcases ih ys with h | h
          · left; simp [chars_le, hxy, hyx, h]
          · right; simp [chars_le, hxy, hyx, h]

theorem chars_le_trans {a b c : List Char} (hab : chars_le a b = true)
    (hbc : chars_le b c = true) : chars_le a c = true := by
  induction a generalizing b c with
  | nil => rfl
  | cons x xs ih =>
    cases b with
    | nil => simp [chars_le] at hab
    | cons y ys =>
      cases c with
      | nil => simp [chars_le] at hbc
      | cons z zs =>
        by_cases hxy : x < y
        · by_cases hyz : y < z
          · simp [chars_le, lt_trans hxy hyz]
          · by_cases hzy : z < y
            · simp [chars_le, hyz, hzy] at hbc
            · have hyz' : y = z := le_antisymm (not_lt.mp hzy) (not_lt.mp hyz)
              simp [chars_le, hyz' ▸ hxy]
        · by_cases hyx : y < x
          · simp [chars_le, hxy, hyx] at hab
          · have hxy' : x = y := le_antisymm (not_lt.mp hyx) (not_lt.mp hxy)
            subst hxy'
            simp only [chars_le, hxy, if_neg, if_false] at hab
            by_cases hyz : x < z
            · simp [chars_le, hyz]
            · by_cases hzy : z < x
              · simp [chars_le, hyz, hzy] at hbc
              · have : x = z := le_antisymm (not_lt.mp hzy) (not_lt.mp hyz)
                subst this
                simp only [chars_le, lt_irrefl, if_neg, if_false] at hab hbc ⊢
                exact ih hab hbc

instance : IsTotal String lower_le :=
  ⟨fun a b => chars_le_total (to_lowercase a).data (to_lowercase b).data⟩

instance : IsTrans String lower_le :=
  ⟨fun _ _ _ hab hbc => chars_le_trans hab hbc⟩

theorem sort_dependencies_perm (xs : List String) : (sort_dependencies xs).Perm xs :=
  List.perm_insertionSort lower_le xs

theorem sort_dependencies_sorted (xs : List String) :
    List.Sorted lower_le (sort_dependencies xs) :=
  List.sorted_insertionSort lower_le xs

end ExtendTypes

namespace Utils

/-- The head computation of the directory loop coincides with a recursive
`get_files` call on the entry: the loop merely inlines the allowed-file
insertion. -/
theorem get_files_entries_head (entry : FsEntry) :
    (match entry with
      | .file _ none _ => (none : Option (List (String × String)))
      | .file path (some e) contents =>
        if is_extension_allowed e then some [(path, contents)]
        else get_files (.file path (some e) contents)
      | .dir p entries => get_files (.dir p entries)) = get_files entry := by
  cases entry with
  | file p ext c =>
    cases ext with
    | none => rfl
    | some e =>
      by_cases ha : is_extension_allowed e <;> simp [get_files, ha]
  | dir p entries => rfl

theorem get_files_entries_cons (entry : FsEntry) (rest : List FsEntry) :
    get_files_entries (entry :: rest)
      = (get_files entry).bind fun collected =>
          (get_files_entries rest).bind fun others => some (collected ++ others) := by
  rw [get_files_entries.eq_def]
  cases entry with
  | file p ext c =>
    cases ext with
    | none => rfl
    | some e =>
      by_cases ha : is_extension_allowed e <;> simp [get_files, ha, Option.bind]
  | dir p entries => rfl

mutual

theorem get_files_none_iff : ∀ t : FsEntry,
    get_files t = none ↔ has_extensionless_file t = true
  | .file p ext c => by
    cases ext with
    | none => simp [get_files, has_extensionless_file]
    | some e =>
      simp only [get_files, has_extensionless_file, Option.isNone_none]
      split <;> simp
  | .dir p entries => by
    rw [show get_files (.dir p entries) = get_files_entries entries from rfl]
    rw [show has_extensionless_file (.dir p entries)
        = has_extensionless_file_entries entries from rfl]
    exact get_files_entries_none_iff entries

theorem get_files_entries_none_iff : ∀ l : List FsEntry,
    get_files_entries l = none ↔ has_extensionless_file_entries l = true
  | [] => by simp [get_files_entries, has_extensionless_file_entries]
  | entry :: rest => by
    rw [get_files_entries_cons]
    have h1 := get_files_none_iff entry
    have h2 := get_files_entries_none_iff rest
    rw [show has_extensionless_file_entries (entry :: rest)
        = (has_extensionless_file entry || has_extensionless_file_entries rest) from rfl]
    cases hge : get_files entry with
    | none =>
      rw [hge] at h1
      simp [h1.mp rfl]
    | some v =>
      have hne : has_extensionless_file entry = false := by
        rw [← Bool.not_eq_true]
        intro hc
        have := h1.mpr hc
        rw [hge] at this
        simp at this
      cases hgr : get_files_entries rest with
      | none =>
        rw [hgr] at h2
        simp [hne, h2.mp rfl]
      | some w =>
        have hnr : has_extensionless_file_entries rest = false := by
          rw [← Bool.not_eq_true]
          intro hc
          have := h2.mpr hc
          rw [hgr] at this
          simp at this
        simp [hne, hnr]

end

end Utils

namespace Utils

theorem node_of_definition_path_raw (p c : String) (d : Definition) :
    (node_of_definition p c d).1.entity.path = p
      ∧ (node_of_definition p c d).1.entity.raw = c := by
  rcases d with td | sd | dd | te
  · rcases td with e | io | i | o | s | u <;> exact ⟨rfl, rfl⟩
  · exact ⟨rfl, rfl⟩
  · exact ⟨rfl, rfl⟩
  · rcases te with e | io | i | o | s | u <;> exact ⟨rfl, rfl⟩

theorem length_flatMap_nodes_of_file (files : List SourceFile) :
    (files.flatMap nodes_of_file).length = total_definitions files := by
  induction files with
  | nil => rfl
  | cons f rest ih =>
    simp only [total_definitions, List.flatMap_cons, List.length_append] at ih ⊢
    cases hp : f.parsed <;> simp [nodes_of_file, hp, ih]

end Utils

/-! ## The claims -/

/-- C1, counterexample: in the edge resolution of utils.rs, the dependency
"Foo" of the enum-extension node (index 1) resolves to the base enum node
(index 0) and the edge added is (0, 1), resolved → dependent — not the
dependent → resolved edge (1, 0) the claim requires for an extension
dependent. -/
theorem extension_edge_not_reversed_counterexample :
    ((Utils.populate_graph_from_ast [enum_and_extension_file] Utils.empty_state).2.nodes.map
        (fun nd => nd.entity.graphql))
      = [GraphQL.TypeDefinition .Enum, GraphQL.TypeExtension .Enum] ∧
    (Utils.populate_graph_from_ast [enum_and_extension_file] Utils.empty_state).2.edges
      = [(0, 1)] ∧
    (1, 0) ∉ (Utils.populate_graph_from_ast [enum_and_extension_file] Utils.empty_state).2.edges :=
  ⟨by decide, by decide, by decide⟩

/-- C1, amended: in the edge resolution of utils.rs, every dependency name
of a node that resolves to an existing node id adds the edge
resolved → dependent, for extension dependents exactly as for non-extension
dependents — no direction reversal happens: an edge is in the result iff it
was already present or its target is the dependent node and its source is
what one of that node's recorded dependency names resolves to. -/
theorem resolved_edges_direction (nodes : List Node) (dm : List (Nat × List String))
    (es : List (Nat × Nat)) (e : Nat × Nat) :
    e ∈ Utils.phase2 nodes dm es ↔
      e ∈ es ∨ ∃ entry ∈ dm, ∃ dep ∈ entry.2,
        Utils.resolve_id nodes dep = some e.1 ∧ e.2 = entry.1 :=
  Utils.mem_phase2 nodes dm es e

/-- C2: in the edge-resolution phase modelled from the spec, a name appears
in a node's missing-definition list iff it is a dependency of that node that
resolves to no node id and is not one of the five built-in scalars. -/
theorem missing_definitions_law (nodes : List Node) (dm : List (Nat × List String))
    (ni : Nat) (deps : List String) (N : String)
    (hmem : (ni, deps) ∈ dm) (hkeys : (dm.map Prod.fst).Nodup) :
    (∃ miss, (ni, miss) ∈ (SpecModel.phase2_with_missing nodes dm).2 ∧ N ∈ miss) ↔
      (N ∈ deps ∧ Utils.resolve_id nodes N = none ∧ N ∉ SpecModel.builtin_scalars) := by
  rw [SpecModel.phase2_with_missing_snd]
  constructor
  · rintro ⟨miss, hmm, hN⟩
    rcases List.mem_filterMap.mp hmm with ⟨entry, hentry, hfn⟩
    simp only at hfn
    split at hfn
    · exact absurd hfn (by simp)
    · injection hfn with hpair
      have h1 : entry.1 = ni := congrArg Prod.fst hpair
      have h2 := congrArg Prod.snd hpair
      simp only at h1 h2
      have hentry' : (ni, entry.2) ∈ dm := by
        rw [← h1]
        exact hentry
      have hdeps : deps = entry.2 := snd_eq_of_keys_nodup hkeys hmem hentry'
      rw [← h2, ← hdeps] at hN
      have := List.mem_filter.mp hN
      refine ⟨this.1, ?_, ?_⟩
      · have hb := this.2
        simp only [Bool.and_eq_true, Option.isNone_iff_eq_none] at hb
        exact hb.1
      · have hb := this.2
        simp only [Bool.and_eq_true, Bool.not_eq_true', decide_eq_false_iff_not] at hb
        exact hb.2
  · rintro ⟨hN, hres, hnb⟩
    refine ⟨deps.filter (fun d => (Utils.resolve_id nodes d).isNone
        && !(decide (d ∈ SpecModel.builtin_scalars))), ?_, ?_⟩
    · apply List.mem_filterMap.mpr
      refine ⟨(ni, deps), hmem, ?_⟩
      simp only
      rw [if_neg]
      intro hc
      rw [List.isEmpty_iff] at hc
      have : N ∈ (deps.filter (fun d => (Utils.resolve_id nodes d).isNone
          && !(decide (d ∈ SpecModel.builtin_scalars)))) :=
        List.mem_filter.mpr ⟨hN, by simp [hres, hnb]⟩
      rw [hc] at this
      cases this
    · exact List.mem_filter.mpr ⟨hN, by simp [hres, hnb]⟩

/-- Witness for the C2 theorem at a concrete input: one node with one
unresolvable non-built-in dependency name. -/
theorem missing_definitions_law_witness :
    ((0, ["Woot"]) ∈ [((0 : Nat), ["Woot"])]) ∧
    (([((0 : Nat), ["Woot"])].map Prod.fst).Nodup) ∧
    ((∃ miss, (0, miss) ∈ (SpecModel.phase2_with_missing [] [(0, ["Woot"])]).2
        ∧ "Woot" ∈ miss) ↔
      ("Woot" ∈ ["Woot"] ∧ Utils.resolve_id [] "Woot" = none
        ∧ "Woot" ∉ SpecModel.builtin_scalars)) :=
  ⟨by decide, by decide,
    missing_definitions_law [] [(0, ["Woot"])] 0 ["Woot"] "Woot" (by decide) (by decide)⟩

/-- C3, counterexample: over a corpus declaring `extend enum Foo` and
`scalar FooExt`, the extension's mangled id ("Foo" + the suffix) collides
with the scalar definition's id, so node ids are not unique for every
corpus. -/
theorem node_ids_not_unique_counterexample :
    ((Utils.populate_graph_from_ast [colliding_ids_file] Utils.empty_state).2.nodes.map
        (fun nd => nd.id)) = ["FooExt", "FooExt"] ∧
    ¬ ((Utils.populate_graph_from_ast [colliding_ids_file] Utils.empty_state).2.nodes.map
        (fun nd => nd.id)).Nodup :=
  ⟨by decide, by decide⟩

/-- C3, amended: an extension's mangled id always differs from its base's
name (so a base and its extension are always two distinct nodes), and on a
successful build every declaration is materialized into exactly one node;
but node ids are not unique over arbitrary corpora — a definition literally
named like an extension's mangled id collides with it. -/
theorem extension_id_distinct_and_one_node_per_declaration :
    (∀ s, Utils.get_extended_id s ≠ s) ∧
    ∀ (files : List Utils.SourceFile) (st : Utils.BuildState),
      (Utils.populate_graph_from_ast files st).1 = .ok () →
      ((Utils.populate_graph_from_ast files st).2.nodes).length
        = st.nodes.length + Utils.total_definitions files := by
  refine ⟨Utils.get_extended_id_ne, ?_⟩
  intro files st hok
  rw [Utils.populate_nodes]
  have hall := (Utils.first_parse_error_none_iff files).mp
    ((Utils.populate_ok_iff files st).mp hok)
  rw [List.takeWhile_eq_self_iff.mpr hall]
  rw [List.length_append, Utils.length_flatMap_nodes_of_file]

/-- Witness for the C3 amended theorem at a concrete input. -/
theorem extension_id_distinct_witness :
    (Utils.get_extended_id "Foo" ≠ "Foo") ∧
    ((Utils.populate_graph_from_ast [enum_and_extension_file] Utils.empty_state).1
      = .ok ()) ∧
    ((Utils.populate_graph_from_ast [enum_and_extension_file] Utils.empty_state).2.nodes).length
      = Utils.empty_state.nodes.length + Utils.total_definitions [enum_and_extension_file] :=
  ⟨extension_id_distinct_and_one_node_per_declaration.1 "Foo", by rfl,
    extension_id_distinct_and_one_node_per_declaration.2 [enum_and_extension_file]
      Utils.empty_state (by rfl)⟩

/-- C4, counterexample: with a parsable file processed before an unparsable
one, the build propagates the parse error but the shared graph keeps the
node built from the earlier file — the state is not "as if nothing had been
built". -/
theorem leftover_nodes_on_parse_error_counterexample :
    (Utils.populate_graph_from_ast [good_enum_file, parse_error_file] Utils.empty_state).1
      = Except.error "syntax error" ∧
    ((Utils.populate_graph_from_ast [good_enum_file, parse_error_file]
        Utils.empty_state).2.nodes.map (fun nd => nd.entity.name)) = ["Foo"] ∧
    (Utils.populate_graph_from_ast [good_enum_file, parse_error_file] Utils.empty_state).2
      ≠ Utils.empty_state :=
  ⟨by rfl, by decide, by decide⟩

/-- C4, amended: the build fails by propagating the parse error of the first
unparsable file in iteration order, and phase 2 never runs — no edges are
added — but the nodes created from the files processed before the failure
remain in the shared graph (no rollback). -/
theorem parse_error_aborts_keeping_prior_nodes (files : List Utils.SourceFile)
    (st : Utils.BuildState) (e : String)
    (herr : (Utils.populate_graph_from_ast files st).1 = .error e) :
    Utils.first_parse_error files = some e ∧
    (Utils.populate_graph_from_ast files st).2.edges = st.edges ∧
    (Utils.populate_graph_from_ast files st).2.nodes
      = st.nodes ++ (files.takeWhile Utils.parse_ok).flatMap Utils.nodes_of_file :=
  ⟨(Utils.populate_error_iff files st e).mp herr,
    Utils.populate_edges_error files st e herr,
    Utils.populate_nodes files st⟩

/-- Witness for the C4 amended theorem at a concrete input. -/
theorem parse_error_aborts_witness :
    ((Utils.populate_graph_from_ast [good_enum_file, parse_error_file] Utils.empty_state).1
      = .error "syntax error") ∧
    (Utils.first_parse_error [good_enum_file, parse_error_file] = some "syntax error" ∧
      (Utils.populate_graph_from_ast [good_enum_file, parse_error_file]
          Utils.empty_state).2.edges = Utils.empty_state.edges ∧
      (Utils.populate_graph_from_ast [good_enum_file, parse_error_file]
          Utils.empty_state).2.nodes
        = Utils.empty_state.nodes
          ++ ([good_enum_file, parse_error_file].takeWhile Utils.parse_ok).flatMap
              Utils.nodes_of_file) :=
  ⟨by rfl,
    parse_error_aborts_keeping_prior_nodes [good_enum_file, parse_error_file]
      Utils.empty_state "syntax error" (by rfl)⟩

/-- C5, counterexample: a schema definition with all three root operation
types yields the case-insensitively sorted list (Mutation, Query,
Subscription), not the source order (query, mutation, subscription) the
claim states. -/
theorem schema_dependencies_sorted_counterexample :
    ExtendTypes.SchemaDefinition.get_dependencies
        ⟨some "Query", some "Mutation", some "Subscription"⟩
      = ["Mutation", "Query", "Subscription"] ∧
    ExtendTypes.SchemaDefinition.get_dependencies
        ⟨some "Query", some "Mutation", some "Subscription"⟩
      ≠ ["Query", "Mutation", "Subscription"] :=
  ⟨by decide, by decide⟩

/-- C5, amended: for every declaration, the extractor's dependency list is
the stable case-insensitive sort of the per-kind extraction stream: source
order is NOT preserved (the output is sorted by lowercased name), while
duplicates ARE retained (the output is a permutation of the stream, keeping
multiplicities; no deduplication). -/
theorem dependencies_sorted_and_duplicates_retained
    (td : TypeDefinition) (te : TypeExtension) (sd : SchemaDefinition)
    (dd : DirectiveDefinition) :
    (List.Sorted ExtendTypes.lower_le (ExtendTypes.TypeDefinition.get_dependencies td)
      ∧ (ExtendTypes.TypeDefinition.get_dependencies td).Perm
          (ExtendTypes.TypeDefinition.unsorted_dependencies td)) ∧
    (List.Sorted ExtendTypes.lower_le (ExtendTypes.TypeExtension.get_dependencies te)
      ∧ (ExtendTypes.TypeExtension.get_dependencies te).Perm
          (ExtendTypes.TypeExtension.unsorted_dependencies te)) ∧
    (List.Sorted ExtendTypes.lower_le (ExtendTypes.SchemaDefinition.get_dependencies sd)
      ∧ (ExtendTypes.SchemaDefinition.get_dependencies sd).Perm
          (ExtendTypes.SchemaDefinition.unsorted_dependencies sd)) ∧
    (List.Sorted ExtendTypes.lower_le (ExtendTypes.DirectiveDefinition.get_dependencies dd)
      ∧ (ExtendTypes.DirectiveDefinition.get_dependencies dd).Perm
          (ExtendTypes.DirectiveDefinition.unsorted_dependencies dd)) :=
  ⟨⟨ExtendTypes.sort_dependencies_sorted _, ExtendTypes.sort_dependencies_perm _⟩,
    ⟨ExtendTypes.sort_dependencies_sorted _, ExtendTypes.sort_dependencies_perm _⟩,
    ⟨ExtendTypes.sort_dependencies_sorted _, ExtendTypes.sort_dependencies_perm _⟩,
    ⟨ExtendTypes.sort_dependencies_sorted _, ExtendTypes.sort_dependencies_perm _⟩⟩

/-- C6: on `input Foo @test { bar: Int! @deprecated }` — a definition, not
an extension — the extractor's output contains the input object's own name
"Foo" (the definition arm chains the own name under a comment reading "Add
extension's source."), matching the unit test's expectation but
contradicting the claim that only the InputObject extension appends its own
name. -/
theorem input_object_definition_appends_own_name :
    ExtendTypes.TypeDefinition.get_dependencies (.InputObject example_input_object)
      = ["deprecated", "Foo", "Int", "test"] ∧
    "Foo" ∈ ExtendTypes.TypeDefinition.get_dependencies (.InputObject example_input_object) :=
  ⟨by decide, by decide⟩

/-- C7: across the whole build, edge insertion collapses duplicates — the
final edge list holds at most one edge per ordered endpoint pair, and
re-inserting an edge that resolution already produced leaves the edge set
unchanged (idempotent `update_edge`). -/
theorem duplicate_edges_collapse (files : List Utils.SourceFile)
    (st : Utils.BuildState) (a b : Nat) (hnd : st.edges.Nodup) :
    ((Utils.populate_graph_from_ast files st).2.edges).Nodup ∧
    ((a, b) ∈ (Utils.populate_graph_from_ast files st).2.edges →
      Utils.update_edge a b ((Utils.populate_graph_from_ast files st).2.edges)
        = (Utils.populate_graph_from_ast files st).2.edges) :=
  ⟨Utils.populate_edges_nodup files st hnd, fun hmem => Utils.update_edge_of_mem hmem⟩

/-- Witness for the C7 theorem at a concrete build whose extension node's
duplicate-free dependency already produced the edge (0, 1). -/
theorem duplicate_edges_collapse_witness :
    ((Utils.populate_graph_from_ast [enum_and_extension_file] Utils.empty_state).2.edges).Nodup ∧
    ((0, 1) ∈ (Utils.populate_graph_from_ast [enum_and_extension_file]
        Utils.empty_state).2.edges →
      Utils.update_edge 0 1 ((Utils.populate_graph_from_ast [enum_and_extension_file]
          Utils.empty_state).2.edges)
        = (Utils.populate_graph_from_ast [enum_and_extension_file]
            Utils.empty_state).2.edges) :=
  duplicate_edges_collapse [enum_and_extension_file] Utils.empty_state 0 1 (by decide)

/-- C8, counterexample: two declarations parsed from the same file are
stored with identical raw texts — the whole file's source text — not with
distinct per-declaration canonical texts. -/
theorem raw_shared_by_declarations_counterexample :
    ((Utils.populate_graph_from_ast [two_enums_file] Utils.empty_state).2.nodes.map
        (fun nd => nd.entity.name)) = ["Foo", "Bar"] ∧
    ((Utils.populate_graph_from_ast [two_enums_file] Utils.empty_state).2.nodes.map
        (fun nd => nd.entity.raw)) = ["enum Foo enum Bar", "enum Foo enum Bar"] :=
  ⟨by decide, by decide⟩

/-- C8, amended: every node the build creates stores as `raw` the whole
source file's text (so declarations from the same file share one raw text),
and rendering emits that stored text preceded by the source path. -/
theorem raw_is_whole_file_and_display (files : List Utils.SourceFile)
    (st : Utils.BuildState) (nd : Node)
    (h : nd ∈ (Utils.populate_graph_from_ast files st).2.nodes) :
    nd ∈ st.nodes ∨ ∃ f, f ∈ files ∧ nd.entity.path = f.path ∧ nd.entity.raw = f.contents ∧
      nd.entity.display = "\n# " ++ f.path ++ "\n" ++ f.contents := by
  rw [Utils.populate_nodes] at h
  rcases List.mem_append.mp h with h1 | h2
  · exact Or.inl h1
  · right
    rcases List.mem_flatMap.mp h2 with ⟨f, hf, hnd⟩
    have hfin : f ∈ files := (List.takeWhile_sublist _).subset hf
    cases hp : f.parsed with
    | error e => rw [Utils.nodes_of_file, hp] at hnd; cases hnd
    | ok ast =>
      rw [Utils.nodes_of_file, hp] at hnd
      rcases List.mem_map.mp hnd with ⟨d, _, hdnd⟩
      have hpr := Utils.node_of_definition_path_raw f.path f.contents d
      refine ⟨f, hfin, ?_, ?_, ?_⟩
      · rw [← hdnd]; exact hpr.1
      · rw [← hdnd]; exact hpr.2
      · rw [← hdnd]
        show Entity.display _ = _
        rw [Entity.display, hpr.1, hpr.2]

/-- Witness for the C8 amended theorem at a concrete node of a concrete
build. -/
theorem raw_is_whole_file_and_display_witness :
    ((⟨⟨[], .TypeDefinition .Enum, "Foo", "two.gql", "enum Foo enum Bar"⟩, "Foo"⟩ : Node)
      ∈ (Utils.populate_graph_from_ast [two_enums_file] Utils.empty_state).2.nodes) ∧
    ((⟨⟨[], .TypeDefinition .Enum, "Foo", "two.gql", "enum Foo enum Bar"⟩, "Foo"⟩ : Node)
        ∈ Utils.empty_state.nodes ∨
      ∃ f, f ∈ [two_enums_file]
        ∧ (Entity.path ⟨[], .TypeDefinition .Enum, "Foo", "two.gql", "enum Foo enum Bar"⟩)
            = f.path
        ∧ (Entity.raw ⟨[], .TypeDefinition .Enum, "Foo", "two.gql", "enum Foo enum Bar"⟩)
            = f.contents
        ∧ (Entity.display ⟨[], .TypeDefinition .Enum, "Foo", "two.gql", "enum Foo enum Bar"⟩)
            = "\n# " ++ f.path ++ "\n" ++ f.contents) :=
  ⟨by decide,
    raw_is_whole_file_and_display [two_enums_file] Utils.empty_state
      ⟨⟨[], .TypeDefinition .Enum, "Foo", "two.gql", "enum Foo enum Bar"⟩, "Foo"⟩
      (by decide)⟩

/-- C9: every interface type extension the utils.rs graph builder processes
yields a node in the built graph tagged `TypeExtension(Scalar)` — the same
kind tag a scalar extension receives — rather than
`TypeExtension(Interface)`. -/
theorem interface_extension_tagged_scalar (files : List Utils.SourceFile)
    (st : Utils.BuildState) (f : Utils.SourceFile) (ast : Document) (it : InterfaceType)
    (hf : f ∈ files) (hast : f.parsed = .ok ast)
    (hd : Definition.TypeExtension (TypeExtension.Interface it) ∈ ast.definitions)
    (hok : (Utils.populate_graph_from_ast files st).1 = .ok ()) :
    ∃ nd ∈ (Utils.populate_graph_from_ast files st).2.nodes,
      nd.id = Utils.get_extended_id it.name ∧
      nd.entity.graphql = GraphQL.TypeExtension GraphQLType.Scalar := by
  rw [Utils.populate_nodes]
  have hall := (Utils.first_parse_error_none_iff files).mp
    ((Utils.populate_ok_iff files st).mp hok)
  rw [List.takeWhile_eq_self_iff.mpr hall]
  refine ⟨(Utils.node_of_definition f.path f.contents
      (.TypeExtension (.Interface it))).1, ?_, rfl, rfl⟩
  apply List.mem_append.mpr
  right
  apply List.mem_flatMap.mpr
  refine ⟨f, hf, ?_⟩
  rw [show Utils.nodes_of_file f
      = ast.definitions.map (fun d => (Utils.node_of_definition f.path f.contents d).1) by
    rw [Utils.nodes_of_file, hast]]
  exact List.mem_map.mpr ⟨_, hd, rfl⟩

/-- Witness for the C9 theorem at a concrete corpus declaring
`extend interface Foo`. -/
theorem interface_extension_tagged_scalar_witness :
    ∃ nd ∈ (Utils.populate_graph_from_ast [interface_extension_file]
        Utils.empty_state).2.nodes,
      nd.id = Utils.get_extended_id "Foo" ∧
      nd.entity.graphql = GraphQL.TypeExtension GraphQLType.Scalar :=
  interface_extension_tagged_scalar [interface_extension_file] Utils.empty_state
    interface_extension_file ⟨[.TypeExtension (.Interface ⟨"Foo", [], []⟩)]⟩
    ⟨"Foo", [], []⟩ (List.mem_singleton.mpr rfl) rfl (List.mem_singleton.mpr rfl) (by rfl)

/-- C10: `get_files` panics (modelled by `none`; the `Result` error channel
is untouched) exactly when the walked tree contains a file whose name has no
extension — directly or inside a scanned directory — and is total otherwise. -/
theorem get_files_panics_iff_extensionless_file (t : Utils.FsEntry) :
    Utils.get_files t = none ↔ Utils.has_extensionless_file t = true :=
  Utils.get_files_none_iff t
